import Mathlib

/-!
# QuickGOProteinAnnotation — verification of the spec's core

Shallow embedding of the two core components described in the spec:
the GO-term ancestor-closure computation (`closure`) and the rule-based
classification engine (`classify`).  The repository's Python implementation
modules are not available; every operation here is modelled from the
specification text, as marked in its doc comment.

The closure traversal accumulates its visited set as a duplicate-free list
(the membership view of a set); `Reaches` is the reachability relation of the
term hierarchy, against which the traversal is proved sound and complete.
-/

namespace QuickGO

/-- A GO term identifier (stable string key, e.g. `"GO:0008233"`). -/
abbrev TermId := String

/-- Modelled from the spec: a **Term** is an identifier, a display name and the
set of direct parent term identifiers (the hierarchy is a DAG, a term may have
multiple parents). -/
structure Term where
  id : TermId
  name : String
  parents : List TermId

/-- Modelled from the spec: **TermGraph**, the in-memory representation of the
GO hierarchy subgraph relevant to a query; answers ancestor queries. -/
structure TermGraph where
  terms : List Term

/-- Look up a term record by identifier. -/
def TermGraph.lookup (g : TermGraph) (t : TermId) : Option Term :=
  g.terms.find? (fun tm => tm.id == t)

/-- The direct parents of a term identifier, or `none` when the identifier
cannot be resolved to a Term (unknown/retracted GO ID). -/
def parentsOf (g : TermGraph) (t : TermId) : Option (List TermId) :=
  (g.lookup t).map Term.parents

/-- The identifiers known to the graph. -/
def TermGraph.ids (g : TermGraph) : Finset TermId :=
  (g.terms.map Term.id).toFinset

theorem mem_ids_of_parentsOf {g : TermGraph} {t : TermId} {ps : List TermId}
    (h : parentsOf g t = some ps) : t ∈ g.ids := by
  unfold parentsOf TermGraph.lookup at h
  cases hf : g.terms.find? (fun tm => tm.id == t) with
  | none => rw [hf] at h; simp at h
  | some tm =>
    have hmem := List.mem_of_find?_eq_some hf
    have hp := List.find?_some hf
    simp only [beq_iff_eq] at hp
    simp only [TermGraph.ids, List.mem_toFinset, List.mem_map]
    exact ⟨tm, hmem, hp⟩

/-- Modelled from the spec: the worklist traversal underlying
`closure(explicit_terms)`.  Terms are expanded at most once thanks to the
`visited` accumulator (diamond shapes cause no duplication); an identifier
that cannot be resolved to a Term surfaces as an error naming it. -/
def closureAux (g : TermGraph) : List TermId → List TermId → Except TermId (List TermId)
  | visited, [] => .ok visited
  | visited, t :: rest =>
    if ht : t ∈ visited then
      closureAux g visited rest
    else
      match hp : parentsOf g t with
      | none => .error t
      | some ps => closureAux g (t :: visited) (ps ++ rest)
termination_by visited work => ((g.ids \ visited.toFinset).card, work.length)
decreasing_by
  · exact Prod.Lex.right _ (Nat.lt_succ_self _)
  · apply Prod.Lex.left
    apply Finset.card_lt_card
    rw [Finset.ssubset_def]
    constructor
    · rw [List.toFinset_cons]
      exact Finset.sdiff_subset_sdiff (le_refl _) (Finset.subset_insert _ _)
    · intro hcon
      have htv : t ∈ g.ids \ visited.toFinset :=
        Finset.mem_sdiff.mpr
          ⟨mem_ids_of_parentsOf hp, fun hc => ht (List.mem_toFinset.mp hc)⟩
      have := hcon htv
      rw [Finset.mem_sdiff, List.toFinset_cons, Finset.mem_insert] at this
      exact this.2 (Or.inl rfl)

theorem closureAux_nil (g : TermGraph) (visited : List TermId) :
    closureAux g visited [] = .ok visited := by
  rw [closureAux]

theorem closureAux_cons_mem {t : TermId} {visited : List TermId} (g : TermGraph)
    (rest : List TermId) (h : t ∈ visited) :
    closureAux g visited (t :: rest) = closureAux g visited rest := by
  rw [closureAux]; simp [h]

theorem closureAux_cons_none {t : TermId} {visited : List TermId} (g : TermGraph)
    (rest : List TermId) (h : t ∉ visited) (hp : parentsOf g t = none) :
    closureAux g visited (t :: rest) = .error t := by
  rw [closureAux, dif_neg h]
  split <;> simp_all

theorem closureAux_cons_some {t : TermId} {visited : List TermId} {ps : List TermId}
    (g : TermGraph) (rest : List TermId) (h : t ∉ visited) (hp : parentsOf g t = some ps) :
    closureAux g visited (t :: rest) = closureAux g (t :: visited) (ps ++ rest) := by
  rw [closureAux, dif_neg h]
  split <;> simp_all

/-- `Reaches g s t`: term `t` is reachable from term `s` by following zero or
more parent ("is-a"/"part-of") edges of the hierarchy, i.e. `t` is `s` itself
or a transitive ancestor of `s`. -/
inductive Reaches (g : TermGraph) : TermId → TermId → Prop
  | refl (t : TermId) : Reaches g t t
  | step {a b c : TermId} {ps : List TermId} (hp : parentsOf g a = some ps)
      (hb : b ∈ ps) (h : Reaches g b c) : Reaches g a c

theorem Reaches.trans {g : TermGraph} {a b c : TermId}
    (hab : Reaches g a b) (hbc : Reaches g b c) : Reaches g a c := by
  induction hab with
  | refl => exact hbc
  | step hp hb _ ih => exact Reaches.step hp hb (ih hbc)

/-- Visited terms are kept: the accumulator only grows. -/
theorem closureAux_visited_subset (g : TermGraph) :
    ∀ (visited work V : List TermId),
      closureAux g visited work = .ok V → visited ⊆ V := by
  intro visited work
  induction visited, work using closureAux.induct g with
  | case1 visited =>
    intro V h
    rw [closureAux_nil] at h
    cases h
    exact List.Subset.refl _
  | case2 visited t rest ht ih =>
    intro V h
    rw [closureAux_cons_mem g rest ht] at h
    exact ih V h
  | case3 visited t rest ht hp =>
    intro V h
    rw [closureAux_cons_none g rest ht hp] at h
    cases h
  | case4 visited t rest ht ps hp ih =>
    intro V h
    rw [closureAux_cons_some g rest ht hp] at h
    exact List.Subset.trans (List.subset_cons_self t visited) (ih V h)

/-- The accumulator never acquires a duplicate: each term is recorded at most
once even when multiple paths lead to it. -/
theorem closureAux_nodup (g : TermGraph) :
    ∀ (visited work V : List TermId),
      closureAux g visited work = .ok V → visited.Nodup → V.Nodup := by
  intro visited work
  induction visited, work using closureAux.induct g with
  | case1 visited =>
    intro V h hnd
    rw [closureAux_nil] at h
    cases h
    exact hnd
  | case2 visited t rest ht ih =>
    intro V h hnd
    rw [closureAux_cons_mem g rest ht] at h
    exact ih V h hnd
  | case3 visited t rest ht hp =>
    intro V h
    rw [closureAux_cons_none g rest ht hp] at h
    cases h
  | case4 visited t rest ht ps hp ih =>
    intro V h hnd
    rw [closureAux_cons_some g rest ht hp] at h
    exact ih V h (List.nodup_cons.mpr ⟨ht, hnd⟩)

/-- Soundness: every member of the result was already visited or is reachable
from some worklist element. -/
theorem closureAux_sound (g : TermGraph) :
    ∀ (visited work V : List TermId),
      closureAux g visited work = .ok V →
      ∀ x ∈ V, x ∈ visited ∨ ∃ w ∈ work, Reaches g w x := by
  intro visited work
  induction visited, work using closureAux.induct g with
  | case1 visited =>
    intro V h x hx
    rw [closureAux_nil] at h
    cases h
    exact Or.inl hx
  | case2 visited t rest ht ih =>
    intro V h x hx
    rw [closureAux_cons_mem g rest ht] at h
    rcases ih V h x hx with hv | ⟨w, hw, hr⟩
    · exact Or.inl hv
    · exact Or.inr ⟨w, List.mem_cons_of_mem t hw, hr⟩
  | case3 visited t rest ht hp =>
    intro V h
    rw [closureAux_cons_none g rest ht hp] at h
    cases h
  | case4 visited t rest ht ps hp ih =>
    intro V h x hx
    rw [closureAux_cons_some g rest ht hp] at h
    rcases ih V h x hx with hv | ⟨w, hw, hr⟩
    · rcases List.mem_cons.mp hv with rfl | hv
      · exact Or.inr ⟨x, List.mem_cons_self x rest, Reaches.refl x⟩
      · exact Or.inl hv
    · rcases List.mem_append.mp hw with hwps | hwrest
      · exact Or.inr ⟨t, List.mem_cons_self t rest, Reaches.step hp hwps hr⟩
      · exact Or.inr ⟨w, List.mem_cons_of_mem t hwrest, hr⟩

/-- Completeness invariant: when every parent of an already-visited term is
itself visited or still on the worklist, the traversal drains the worklist
into the result and the result is closed under parent edges. -/
theorem closureAux_complete (g : TermGraph) :
    ∀ (visited work V : List TermId),
      closureAux g visited work = .ok V →
      (∀ v ∈ visited, ∀ ps, parentsOf g v = some ps → ∀ p ∈ ps, p ∈ visited ∨ p ∈ work) →
      (∀ w ∈ work, w ∈ V) ∧
        (∀ v ∈ V, ∀ ps, parentsOf g v = some ps → ∀ p ∈ ps, p ∈ V) := by
  intro visited work
  induction visited, work using closureAux.induct g with
  | case1 visited =>
    intro V h hinv
    rw [closureAux_nil] at h
    cases h
    refine ⟨by simp, ?_⟩
    intro v hv ps hps p hp
    rcases hinv v hv ps hps p hp with hp' | hp'
    · exact hp'
    · simp at hp'
  | case2 visited t rest ht ih =>
    intro V h hinv
    rw [closureAux_cons_mem g rest ht] at h
    have hinv' : ∀ v ∈ visited, ∀ ps, parentsOf g v = some ps →
        ∀ p ∈ ps, p ∈ visited ∨ p ∈ rest := by
      intro v hv ps hps p hp
      rcases hinv v hv ps hps p hp with hp' | hp'
      · exact Or.inl hp'
      · rcases List.mem_cons.mp hp' with rfl | hp''
        · exact Or.inl ht
        · exact Or.inr hp''
    obtain ⟨hwork, hclosed⟩ := ih V h hinv'
    refine ⟨?_, hclosed⟩
    intro w hw
    rcases List.mem_cons.mp hw with rfl | hw'
    · exact closureAux_visited_subset g visited rest V h ht
    · exact hwork w hw'
  | case3 visited t rest ht hp =>
    intro V h
    rw [closureAux_cons_none g rest ht hp] at h
    cases h
  | case4 visited t rest ht ps hp ih =>
    intro V h hinv
    rw [closureAux_cons_some g rest ht hp] at h
    have hinv' : ∀ v ∈ t :: visited, ∀ qs, parentsOf g v = some qs →
        ∀ p ∈ qs, p ∈ t :: visited ∨ p ∈ ps ++ rest := by
      intro v hv qs hqs p hpq
      rcases List.mem_cons.mp hv with rfl | hv'
      · rw [hp] at hqs
        cases hqs
        exact Or.inr (List.mem_append.mpr (Or.inl hpq))
      · rcases hinv v hv' qs hqs p hpq with hp' | hp'
        · exact Or.inl (List.mem_cons_of_mem t hp')
        · rcases List.mem_cons.mp hp' with rfl | hp''
          · exact Or.inl (List.mem_cons_self _ _)
          · exact Or.inr (List.mem_append.mpr (Or.inr hp''))
    obtain ⟨hwork, hclosed⟩ := ih V h hinv'
    refine ⟨?_, hclosed⟩
    intro w hw
    rcases List.mem_cons.mp hw with rfl | hw'
    · exact closureAux_visited_subset g (w :: visited) (ps ++ rest) V h
        (List.mem_cons_self _ _)
    · exact hwork w (List.mem_append.mpr (Or.inr hw'))

/-- Every term in the result is resolvable, provided the initially visited
terms were: a term enters the accumulator only after its parents resolve. -/
theorem closureAux_resolvable (g : TermGraph) :
    ∀ (visited work V : List TermId),
      closureAux g visited work = .ok V →
      (∀ v ∈ visited, (parentsOf g v).isSome) →
      ∀ x ∈ V, (parentsOf g x).isSome := by
  intro visited work
  induction visited, work using closureAux.induct g with
  | case1 visited =>
    intro V h hres
    rw [closureAux_nil] at h
    cases h
    exact hres
  | case2 visited t rest ht ih =>
    intro V h hres
    rw [closureAux_cons_mem g rest ht] at h
    exact ih V h hres
  | case3 visited t rest ht hp =>
    intro V h
    rw [closureAux_cons_none g rest ht hp] at h
    cases h
  | case4 visited t rest ht ps hp ih =>
    intro V h hres
    rw [closureAux_cons_some g rest ht hp] at h
    refine ih V h ?_
    intro v hv
    rcases List.mem_cons.mp hv with rfl | hv'
    · rw [hp]; rfl
    · exact hres v hv'

/-- The traversal succeeds when every term reachable from the worklist is
resolvable. -/
theorem closureAux_success (g : TermGraph) :
    ∀ (visited work : List TermId),
      (∀ w ∈ work, ∀ x, Reaches g w x → (parentsOf g x).isSome) →
      ∃ V, closureAux g visited work = .ok V := by
  intro visited work
  induction visited, work using closureAux.induct g with
  | case1 visited =>
    intro _
    exact ⟨visited, closureAux_nil g visited⟩
  | case2 visited t rest ht ih =>
    intro hres
    obtain ⟨V, hV⟩ := ih fun w hw => hres w (List.mem_cons_of_mem t hw)
    exact ⟨V, by rw [closureAux_cons_mem g rest ht]; exact hV⟩
  | case3 visited t rest ht hp =>
    intro hres
    have := hres t (List.mem_cons_self t rest) t (Reaches.refl t)
    rw [hp] at this
    simp at this
  | case4 visited t rest ht ps hp ih =>
    intro hres
    have hres' : ∀ w ∈ ps ++ rest, ∀ x, Reaches g w x → (parentsOf g x).isSome := by
      intro w hw x hr
      rcases List.mem_append.mp hw with hwps | hwrest
      · exact hres t (List.mem_cons_self t rest) x (Reaches.step hp hwps hr)
      · exact hres w (List.mem_cons_of_mem t hwrest) x hr
    obtain ⟨V, hV⟩ := ih hres'
    exact ⟨V, by rw [closureAux_cons_some g rest ht hp]; exact hV⟩

/-- When the traversal fails, the reported identifier is an unresolvable term
reachable from the worklist. -/
theorem closureAux_error (g : TermGraph) :
    ∀ (visited work : List TermId) (e : TermId),
      closureAux g visited work = .error e →
      parentsOf g e = none ∧ ∃ w ∈ work, Reaches g w e := by
  intro visited work
  induction visited, work using closureAux.induct g with
  | case1 visited =>
    intro e h
    rw [closureAux_nil] at h
    cases h
  | case2 visited t rest ht ih =>
    intro e h
    rw [closureAux_cons_mem g rest ht] at h
    obtain ⟨hnone, w, hw, hr⟩ := ih e h
    exact ⟨hnone, w, List.mem_cons_of_mem t hw, hr⟩
  | case3 visited t rest ht hp =>
    intro e h
    rw [closureAux_cons_none g rest ht hp] at h
    cases h
    exact ⟨hp, t, List.mem_cons_self t rest, Reaches.refl t⟩
  | case4 visited t rest ht ps hp ih =>
    intro e h
    rw [closureAux_cons_some g rest ht hp] at h
    obtain ⟨hnone, w, hw, hr⟩ := ih e h
    rcases List.mem_append.mp hw with hwps | hwrest
    · exact ⟨hnone, t, List.mem_cons_self t rest, Reaches.step hp hwps hr⟩
    · exact ⟨hnone, w, List.mem_cons_of_mem t hwrest, hr⟩

/-- Modelled from the spec: `closure(explicit_terms: set<TermId>) -> set<TermId>`,
the set of all ancestor terms reachable from the explicitly-annotated terms by
following "is-a"/"part-of" parent edges, union with the starting set, computed
by a traversal with a visited-set guard.  The explicit set is given by the
list enumerating it; the result is the duplicate-free visited list, whose
membership is proved below to depend only on the membership of the input.  An
identifier that cannot be resolved to a Term surfaces as an error naming it. -/
def closure (g : TermGraph) (explicitTerms : List TermId) :
    Except TermId (List TermId) :=
  closureAux g [] explicitTerms

/-- A set closed under parent edges is closed under reachability. -/
theorem mem_of_mem_of_reaches {g : TermGraph} {V : List TermId}
    (hclosed : ∀ v ∈ V, ∀ ps, parentsOf g v = some ps → ∀ p ∈ ps, p ∈ V)
    {a y : TermId} (ha : a ∈ V) (hr : Reaches g a y) : y ∈ V := by
  induction hr with
  | refl => exact ha
  | step hp hb _ ih => exact ih (hclosed _ ha _ hp _ hb)

theorem closure_ok_subset {g : TermGraph} {S V : List TermId}
    (h : closure g S = .ok V) : S ⊆ V :=
  fun _ hs => (closureAux_complete g [] S V h (by simp)).1 _ hs

theorem closure_ok_closed {g : TermGraph} {S V : List TermId}
    (h : closure g S = .ok V) :
    ∀ v ∈ V, ∀ ps, parentsOf g v = some ps → ∀ p ∈ ps, p ∈ V :=
  (closureAux_complete g [] S V h (by simp)).2

/-- Exact characterization of a successful closure: its members are precisely
the terms reachable from the explicit set. -/
theorem closure_mem_iff {g : TermGraph} {S V : List TermId}
    (h : closure g S = .ok V) (x : TermId) :
    x ∈ V ↔ ∃ s ∈ S, Reaches g s x := by
  constructor
  · intro hx
    rcases closureAux_sound g [] S V h x hx with hv | ⟨w, hw, hr⟩
    · simp at hv
    · exact ⟨w, hw, hr⟩
  · rintro ⟨s, hs, hr⟩
    exact mem_of_mem_of_reaches (closure_ok_closed h) (closure_ok_subset h hs) hr

theorem closure_ok_nodup {g : TermGraph} {S V : List TermId}
    (h : closure g S = .ok V) : V.Nodup :=
  closureAux_nodup g [] S V h List.nodup_nil

theorem closure_ok_resolvable {g : TermGraph} {S V : List TermId}
    (h : closure g S = .ok V) : ∀ x ∈ V, (parentsOf g x).isSome :=
  closureAux_resolvable g [] S V h (by simp)

theorem closure_success {g : TermGraph} {S : List TermId}
    (hres : ∀ s ∈ S, ∀ x, Reaches g s x → (parentsOf g x).isSome) :
    ∃ V, closure g S = .ok V :=
  closureAux_success g [] S hres

theorem closure_error {g : TermGraph} {S : List TermId} {e : TermId}
    (h : closure g S = .error e) :
    parentsOf g e = none ∧ ∃ s ∈ S, Reaches g s e :=
  closureAux_error g [] S e h

/-- Modelled from the spec: **ClassificationRule**, an ordered triple of a
required term-identifier set, a forbidden term-identifier set, and a label. -/
structure ClassificationRule where
  required : Finset TermId
  forbidden : Finset TermId
  label : String

/-- Modelled from the spec: a protein **matches** a rule iff
`required ⊆ annotation_terms` AND `forbidden ∩ annotation_terms = ∅`. -/
def ruleMatches (r : ClassificationRule) (annotationTerms : Finset TermId) : Bool :=
  decide (r.required ⊆ annotationTerms) && decide (r.forbidden ∩ annotationTerms = ∅)

/-- Modelled from the spec:
`classify(annotation_terms: set<TermId>, rules: RuleSet) -> label | unmatched`.
Rules are evaluated strictly in the caller-supplied order; the label of the
first matching rule is returned; `none` ("unmatched") when no rule matches. -/
def classify (annotationTerms : Finset TermId) : List ClassificationRule → Option String
  | [] => none
  | r :: rest =>
    if ruleMatches r annotationTerms then some r.label
    else classify annotationTerms rest

/-- Modelled from the spec: batch classification (`annotate_proteins`) —
`classify` applied per protein independently to its resolved annotation set;
output rows follow the input order of proteins. -/
def annotateProteins (resolved : String → Finset TermId)
    (rules : List ClassificationRule) (proteins : List String) :
    List (String × Option String) :=
  proteins.map (fun p => (p, classify (resolved p) rules))

/-- Modelled from the spec: `SelectedFunctionAnnotation` — `resolve_all`
followed by set-intersection with the caller-supplied restriction set of term
identifiers of interest. -/
def resolveSelected (g : TermGraph) (explicitTerms : List TermId)
    (restriction : Finset TermId) : Except TermId (List TermId) :=
  (closure g explicitTerms).map (fun full => full.filter (fun t => t ∈ restriction))

/-- Modelled from the spec: `ResolutionError` names the offending term
identifier and the protein context. -/
structure ResolutionError where
  proteinId : String
  termId : TermId

/-- Modelled from the spec: `resolve_all(protein_id)` — the protein's explicit
terms expanded through `closure`; a term identifier that cannot be resolved
surfaces as a `ResolutionError` naming the identifier and the protein,
never silently dropped. -/
def resolveAll (g : TermGraph) (proteinId : String)
    (explicitTerms : List TermId) : Except ResolutionError (List TermId) :=
  match closure g explicitTerms with
  | .ok full => .ok full
  | .error t => .error ⟨proteinId, t⟩

/-- A four-term diamond: `"A"` has parents `"B"` and `"C"`, which share the
common grandparent `"D"`. -/
def diamondGraph : TermGraph :=
  ⟨[⟨"A", "a", ["B", "C"]⟩, ⟨"B", "b", ["D"]⟩, ⟨"C", "c", ["D"]⟩, ⟨"D", "d", []⟩]⟩

/-- A two-term chain: protein kinase activity is a child of kinase activity. -/
def kinaseGraph : TermGraph :=
  ⟨[⟨"GO:0004672", "protein kinase activity", ["GO:0016301"]⟩,
    ⟨"GO:0016301", "kinase activity", []⟩]⟩

/-- A graph whose only term references a parent identifier that cannot be
resolved. -/
def danglingGraph : TermGraph :=
  ⟨[⟨"A", "a", ["MISSING"]⟩]⟩

/-- C3: a successful closure is exactly the union of the explicit set with
the terms reachable from it by following parent edges transitively, and —
the result being duplicate-free — each reachable term appears exactly once
even when multiple paths (diamonds in the DAG) lead to it. -/
theorem closure_exactly_reachable {g : TermGraph} {S V : List TermId}
    (h : closure g S = .ok V) (x : TermId) :
    (x ∈ V ↔ x ∈ S ∨ ∃ s ∈ S, Reaches g s x) ∧ V.Nodup := by
  refine ⟨?_, closure_ok_nodup h⟩
  rw [closure_mem_iff h]
  constructor
  · rintro ⟨s, hs, hr⟩
    exact Or.inr ⟨s, hs, hr⟩
  · rintro (hx | ⟨s, hs, hr⟩)
    · exact ⟨x, hx, Reaches.refl x⟩
    · exact ⟨s, hs, hr⟩

/-- C3 witness: in the diamond graph the closure of `{"A"}` is
`{"C","D","B","A"}`; the shared grandparent `"D"` is reachable along two
paths yet the result is duplicate-free. -/
theorem closure_exactly_reachable_witness :
    ("D" ∈ ["C", "D", "B", "A"] ↔
        "D" ∈ ["A"] ∨ ∃ s ∈ ["A"], Reaches diamondGraph s "D") ∧
      (["C", "D", "B", "A"] : List TermId).Nodup :=
  @closure_exactly_reachable diamondGraph ["A"] ["C", "D", "B", "A"]
    (by simp +decide [closure, closureAux_cons_some, closureAux_cons_mem,
      closureAux_nil, parentsOf, TermGraph.lookup, diamondGraph]) "D"

/-- C5: restricted resolution returns exactly the intersection of the full
closure with the restriction set `R`: its members are precisely the closure
members that lie in `R`, so a term of `R` outside the closure is simply
absent, and no error arises from it. -/
theorem resolveSelected_eq_inter {g : TermGraph} {S V : List TermId}
    (R : Finset TermId) (h : closure g S = .ok V) :
    resolveSelected g S R = .ok (V.filter (fun t => t ∈ R)) ∧
      ∀ t, t ∈ V.filter (fun t => t ∈ R) ↔ t ∈ V ∧ t ∈ R := by
  refine ⟨?_, ?_⟩
  · simp [resolveSelected, h, Except.map]
  · intro t
    rw [List.mem_filter]
    simp

/-- C5 witness: restricting resolution to `{GO:0016301, GO:0008233}` for an
explicit set whose full closure is `{GO:0016301, GO:0004672}` succeeds and
returns exactly `{GO:0016301}`. -/
theorem resolveSelected_eq_inter_witness :
    (resolveSelected kinaseGraph ["GO:0004672"] {"GO:0016301", "GO:0008233"} =
        .ok ((["GO:0016301", "GO:0004672"] : List TermId).filter
          (fun t => t ∈ ({"GO:0016301", "GO:0008233"} : Finset TermId))) ∧
      (∀ t, t ∈ (["GO:0016301", "GO:0004672"] : List TermId).filter
            (fun t => t ∈ ({"GO:0016301", "GO:0008233"} : Finset TermId)) ↔
          t ∈ ["GO:0016301", "GO:0004672"] ∧
            t ∈ ({"GO:0016301", "GO:0008233"} : Finset TermId))) ∧
      (["GO:0016301", "GO:0004672"] : List TermId).filter
          (fun t => t ∈ ({"GO:0016301", "GO:0008233"} : Finset TermId)) =
        ["GO:0016301"] :=
  ⟨@resolveSelected_eq_inter kinaseGraph ["GO:0004672"]
      ["GO:0016301", "GO:0004672"] {"GO:0016301", "GO:0008233"}
      (by simp +decide [closure, closureAux_cons_some, closureAux_cons_mem,
        closureAux_nil, parentsOf, TermGraph.lookup, kinaseGraph]),
    by decide⟩

/-- C6: closure is idempotent — applying `closure` to an already-closed set
changes nothing: if `closure g S` succeeds with result `V`, then
`closure g V` succeeds and returns a set with exactly the members of `V`. -/
theorem closure_idempotent {g : TermGraph} {S V : List TermId}
    (h : closure g S = .ok V) :
    ∃ V', closure g V = .ok V' ∧ ∀ x, (x ∈ V' ↔ x ∈ V) := by
  have hres : ∀ v ∈ V, ∀ x, Reaches g v x → (parentsOf g x).isSome := by
    intro v hv x hr
    exact closure_ok_resolvable h x
      (mem_of_mem_of_reaches (closure_ok_closed h) hv hr)
  obtain ⟨V', hV'⟩ := closure_success hres
  refine ⟨V', hV', ?_⟩
  intro x
  rw [closure_mem_iff hV']
  constructor
  · rintro ⟨v, hv, hr⟩
    exact mem_of_mem_of_reaches (closure_ok_closed h) hv hr
  · intro hx
    exact ⟨x, hx, Reaches.refl x⟩

/-- C6 witness: the closure of `{"A"}` in the diamond graph is
`{"C","D","B","A"}`, and closing that set again yields a set with exactly the
same members. -/
theorem closure_idempotent_witness :
    ∃ V', closure diamondGraph ["C", "D", "B", "A"] = .ok V' ∧
      ∀ x, (x ∈ V' ↔ x ∈ ["C", "D", "B", "A"]) :=
  @closure_idempotent diamondGraph ["A"] ["C", "D", "B", "A"]
    (by simp +decide [closure, closureAux_cons_some, closureAux_cons_mem,
      closureAux_nil, parentsOf, TermGraph.lookup, diamondGraph])

/-- C7: closure is monotone — if every explicit term of `S₁` is an explicit
term of `S₂` and both closures succeed, every member of the closure of `S₁`
is a member of the closure of `S₂`. -/
theorem closure_monotone {g : TermGraph} {S₁ S₂ V₁ V₂ : List TermId}
    (hS : S₁ ⊆ S₂) (h₁ : closure g S₁ = .ok V₁)
    (h₂ : closure g S₂ = .ok V₂) : V₁ ⊆ V₂ := by
  intro x hx
  obtain ⟨s, hs, hr⟩ := (closure_mem_iff h₁ x).mp hx
  exact (closure_mem_iff h₂ x).mpr ⟨s, hS hs, hr⟩

/-- C7 witness: in the diamond graph, `{"B"} ⊆ {"A","B"}` and the respective
closures `{"D","B"}` and `{"C","D","B","A"}` are in the subset relation. -/
theorem closure_monotone_witness :
    (["D", "B"] : List TermId) ⊆ ["C", "D", "B", "A"] :=
  @closure_monotone diamondGraph ["B"] ["A", "B"] ["D", "B"]
    ["C", "D", "B", "A"] (by simp)
    (by simp +decide [closure, closureAux_cons_some, closureAux_cons_mem,
      closureAux_nil, parentsOf, TermGraph.lookup, diamondGraph])
    (by simp +decide [closure, closureAux_cons_some, closureAux_cons_mem,
      closureAux_nil, parentsOf, TermGraph.lookup, diamondGraph])

/-- C9: when some term reachable from the explicit set cannot be resolved,
resolution fails with a `ResolutionError` naming an unresolvable reachable
identifier and the protein context, and returns no successful result — the
unresolvable term is never silently dropped or treated as parentless. -/
theorem resolveAll_resolution_error {g : TermGraph} {S : List TermId}
    (pid : String) {x : TermId} (hreach : ∃ s ∈ S, Reaches g s x)
    (hnone : parentsOf g x = none) :
    ∃ e : ResolutionError, resolveAll g pid S = .error e ∧
      e.proteinId = pid ∧ parentsOf g e.termId = none ∧
      (∃ s ∈ S, Reaches g s e.termId) ∧
      ∀ full, resolveAll g pid S ≠ .ok full := by
  cases hc : closure g S with
  | ok V =>
    exfalso
    obtain ⟨s, hs, hr⟩ := hreach
    have hx : x ∈ V := (closure_mem_iff hc x).mpr ⟨s, hs, hr⟩
    have := closure_ok_resolvable hc x hx
    rw [hnone] at this
    simp at this
  | error t =>
    obtain ⟨ht, s, hs, hr⟩ := closure_error hc
    refine ⟨⟨pid, t⟩, ?_, rfl, ht, ⟨s, hs, hr⟩, ?_⟩
    · simp [resolveAll, hc]
    · intro full hfull
      simp [resolveAll, hc] at hfull

/-- C9 witness: in the graph whose only term `"A"` references the
unresolvable parent `"MISSING"`, resolving protein `"P12345"` from explicit
set `{"A"}` surfaces a `ResolutionError` naming an unresolvable reachable
term and the protein, and yields no successful result. -/
theorem resolveAll_resolution_error_witness :
    ∃ e : ResolutionError,
      resolveAll danglingGraph "P12345" ["A"] = .error e ∧
        e.proteinId = "P12345" ∧ parentsOf danglingGraph e.termId = none ∧
        (∃ s ∈ ["A"], Reaches danglingGraph s e.termId) ∧
        ∀ full, resolveAll danglingGraph "P12345" ["A"] ≠ .ok full :=
  @resolveAll_resolution_error danglingGraph ["A"] "P12345" "MISSING"
    ⟨"A", by simp,
      Reaches.step rfl (List.mem_singleton.mpr rfl) (Reaches.refl "MISSING")⟩
    rfl

/-- C1: `classify` returns the label of the first rule, in caller-supplied
order, that matches the annotation set, and no rule after it influences the
result: whatever rules follow the first matching rule, the outcome is that
rule's label. -/
theorem classify_first_match_wins (s : Finset TermId)
    (pre : List ClassificationRule) (r : ClassificationRule)
    (post : List ClassificationRule)
    (hpre : ∀ r' ∈ pre, ruleMatches r' s = false)
    (hr : ruleMatches r s = true) :
    classify s (pre ++ r :: post) = some r.label := by
  induction pre with
  | nil => simp [classify, hr]
  | cons a pre ih =>
    have ha := hpre a (List.mem_cons_self a pre)
    rw [List.cons_append]
    simp only [classify, ha, Bool.false_eq_true, if_false]
    exact ih fun r' h' => hpre r' (List.mem_cons_of_mem a h')

/-- C1 witness: with the rule list from the spec's protein-kinase example and
an annotation set containing both `GO:0004672` and `GO:0016301`, the result is
`"Protein kinase"` regardless of the two later rules. -/
theorem classify_first_match_wins_witness :
    classify {"GO:0004672", "GO:0016301"}
      ([] ++ ⟨{"GO:0004672"}, ∅, "Protein kinase"⟩ ::
        [⟨{"GO:0016301"}, {"GO:0004672"}, "Other kinase"⟩,
         ⟨∅, {"GO:0016301"}, "Non-kinase"⟩]) = some "Protein kinase" :=
  classify_first_match_wins {"GO:0004672", "GO:0016301"} []
    ⟨{"GO:0004672"}, ∅, "Protein kinase"⟩
    [⟨{"GO:0016301"}, {"GO:0004672"}, "Other kinase"⟩,
     ⟨∅, {"GO:0016301"}, "Non-kinase"⟩]
    (by simp) (by decide)

/-- C2: a rule matches an annotation set iff its required set is a subset of
the set and its forbidden set has empty intersection with it; consequently a
rule with required `{A}` and forbidden `{B}` matches no set containing both
`A` and `B`. -/
theorem ruleMatches_iff (r : ClassificationRule) (s : Finset TermId) :
    (ruleMatches r s = true ↔ r.required ⊆ s ∧ r.forbidden ∩ s = ∅) ∧
      (∀ (A B : TermId) (lbl : String), A ∈ s → B ∈ s →
        ruleMatches ⟨{A}, {B}, lbl⟩ s = false) := by
  constructor
  · simp [ruleMatches]
  · intro A B lbl hA hB
    simp only [ruleMatches, Bool.and_eq_false_iff, decide_eq_false_iff_not]
    right
    intro hint
    have hBmem : B ∈ ({B} : Finset TermId) ∩ s := by
      simp [hB]
    rw [hint] at hBmem
    simp at hBmem

/-- C2 witness: the rule requiring `GO:0004672` and forbidding `GO:0016301`
does not match an annotation set containing both. -/
theorem ruleMatches_iff_witness :
    ruleMatches ⟨{"GO:0004672"}, {"GO:0016301"}, "X"⟩
      {"GO:0004672", "GO:0016301"} = false :=
  (ruleMatches_iff ⟨{"GO:0004672"}, {"GO:0016301"}, "X"⟩
      {"GO:0004672", "GO:0016301"}).2
    "GO:0004672" "GO:0016301" "X" (by decide) (by decide)

/-- C4: the classification engine assigns at most one category label per
resolved annotation set: `classify` either returns the label of some matching
rule (a single `some` value) or returns `none` with no rule matching — never
more than one label. -/
theorem classify_at_most_one_label (s : Finset TermId)
    (rules : List ClassificationRule) :
    (∃ r ∈ rules, ruleMatches r s = true ∧ classify s rules = some r.label) ∨
      (classify s rules = none ∧ ∀ r ∈ rules, ruleMatches r s = false) := by
  induction rules with
  | nil => exact Or.inr ⟨rfl, by simp⟩
  | cons a rest ih =>
    cases ha : ruleMatches a s with
    | true =>
      refine Or.inl ⟨a, List.mem_cons_self a rest, ha, ?_⟩
      simp [classify, ha]
    | false =>
      have hstep : classify s (a :: rest) = classify s rest := by
        simp [classify, ha]
      rcases ih with ⟨r, hr, hm, hc⟩ | ⟨hc, hall⟩
      · exact Or.inl ⟨r, List.mem_cons_of_mem a hr, hm, hstep.trans hc⟩
      · refine Or.inr ⟨hstep.trans hc, ?_⟩
        intro r hrmem
        rcases List.mem_cons.mp hrmem with rfl | hrmem'
        · exact ha
        · exact hall r hrmem'

/-- C4 witness: at a concrete annotation set and rule list, the dichotomy
holds — here the first (and only) rule matches and yields its label. -/
theorem classify_at_most_one_label_witness :
    (∃ r ∈ [(⟨{"GO:0016301"}, ∅, "Kinase"⟩ : ClassificationRule)],
        ruleMatches r {"GO:0016301"} = true ∧
          classify {"GO:0016301"}
            [⟨{"GO:0016301"}, ∅, "Kinase"⟩] = some r.label) ∨
      (classify {"GO:0016301"} [⟨{"GO:0016301"}, ∅, "Kinase"⟩] = none ∧
        ∀ r ∈ [(⟨{"GO:0016301"}, ∅, "Kinase"⟩ : ClassificationRule)],
          ruleMatches r {"GO:0016301"} = false) :=
  classify_at_most_one_label {"GO:0016301"} [⟨{"GO:0016301"}, ∅, "Kinase"⟩]

/-- C8: when no rule matches, `classify` terminates normally with `none`
("unmatched"), not an error: it is a total function into `Option`. -/
theorem classify_unmatched (s : Finset TermId)
    (rules : List ClassificationRule)
    (h : ∀ r ∈ rules, ruleMatches r s = false) :
    classify s rules = none := by
  induction rules with
  | nil => rfl
  | cons a rest ih =>
    simp only [classify, h a (List.mem_cons_self a rest),
      Bool.false_eq_true, if_false]
    exact ih fun r hr => h r (List.mem_cons_of_mem a hr)

/-- C8 witness: with the single rule requiring `A` and the empty annotation
set, the result is `none` (unmatched). -/
theorem classify_unmatched_witness :
    classify ∅ [(⟨{"A"}, ∅, "X"⟩ : ClassificationRule)] = none :=
  classify_unmatched ∅ [⟨{"A"}, ∅, "X"⟩]
    (by
      intro r hr
      rw [List.mem_singleton.mp hr]
      decide)

/-- C10: `classify` is deterministic — a pure function of its two inputs: any
two invocations on equal annotation sets and equal rule lists return the same
result. -/
theorem classify_deterministic (s₁ s₂ : Finset TermId)
    (rules₁ rules₂ : List ClassificationRule)
    (hs : s₁ = s₂) (hrules : rules₁ = rules₂) :
    classify s₁ rules₁ = classify s₂ rules₂ := by
  subst hs
  subst hrules
  rfl

/-- C10 witness: two invocations at the same concrete inputs agree. -/
theorem classify_deterministic_witness :
    classify {"GO:0016301"} [(⟨{"GO:0016301"}, ∅, "Kinase"⟩ : ClassificationRule)] =
      classify {"GO:0016301"} [(⟨{"GO:0016301"}, ∅, "Kinase"⟩ : ClassificationRule)] :=
  classify_deterministic {"GO:0016301"} {"GO:0016301"}
    [⟨{"GO:0016301"}, ∅, "Kinase"⟩] [⟨{"GO:0016301"}, ∅, "Kinase"⟩] rfl rfl

end QuickGO
